import Mathlib

/-!
Verification development for the Test_spese personal-finance tracker.

The Python sources are shallowly embedded: strings are Lean `String`s
(manipulated through their underlying `List Char`), pandas DataFrames become
lists of records, DuckDB tables become fields of an explicit state record, and
floats become rationals (`ℚ`), which is faithful for the sign / linear
arithmetic properties stated here.  Python's `str.lower` is modelled as ASCII
lowercasing (`lowerChar`), which agrees with CPython on all ASCII data.
-/

/-- Character lists, the model of Python `str` contents. -/
abbrev Chars := List Char

/-- ASCII lowercasing of one character; models Python `str.lower` per character
(identity outside `A`-`Z`). -/
def lowerChar (c : Char) : Char :=
  if c.toNat ≥ 65 ∧ c.toNat ≤ 90 then Char.ofNat (c.toNat + 32) else c

theorem toNat_lowerChar_of (c : Char) (h : c.toNat ≥ 65 ∧ c.toNat ≤ 90) :
    (lowerChar c).toNat = c.toNat + 32 := by
  simp only [lowerChar, if_pos h]
  have hv : Nat.isValidChar (c.toNat + 32) := by
    left; omega
  rw [Char.ofNat, dif_pos hv]
  simp [Char.ofNatAux, Char.toNat, UInt32.toNat, BitVec.toNat_ofNatLt]

theorem lowerChar_eq_self (c : Char) (h : ¬(c.toNat ≥ 65 ∧ c.toNat ≤ 90)) :
    lowerChar c = c := by
  simp only [lowerChar, if_neg h]

theorem lowerChar_idem (c : Char) : lowerChar (lowerChar c) = lowerChar c := by
  by_cases h : c.toNat ≥ 65 ∧ c.toNat ≤ 90
  · have h2 := toNat_lowerChar_of c h
    apply lowerChar_eq_self
    omega
  · rw [lowerChar_eq_self c h, lowerChar_eq_self c h]

/-- Models Python `t.replace('#', '')`. -/
def stripHash (s : Chars) : Chars := s.filter (fun c => c ≠ '#')

/-- Models Python `t.replace(',', ' ')`. -/
def commaToSpace (s : Chars) : Chars := s.map (fun c => if c = ',' then ' ' else c)

/-- Worker for `splitWS`: `acc` holds the current word reversed. -/
def splitWSAux : Chars → Chars → List Chars
  | [], acc => if acc = [] then [] else [acc.reverse]
  | c :: cs, acc =>
    if c.isWhitespace then
      (if acc = [] then splitWSAux cs [] else acc.reverse :: splitWSAux cs [])
    else splitWSAux cs (c :: acc)

/-- Models Python `str.split()` (split on whitespace runs, dropping empties). -/
def splitWS (s : Chars) : List Chars := splitWSAux s []

/-- Boolean lexicographic comparison of char lists by code point; models how
Python `sorted` orders strings. -/
def lexLe : Chars → Chars → Bool
  | [], _ => true
  | _ :: _, [] => false
  | a :: as, b :: bs => if a < b then true else if b < a then false else lexLe as bs

/-- The order relation used for sorting tag lists. -/
def LexLE (a b : Chars) : Prop := lexLe a b = true

instance : DecidableRel LexLE := fun a b => by
  unfold LexLE; infer_instance

theorem lexLe_total : ∀ a b : Chars, lexLe a b = true ∨ lexLe b a = true := by
  intro a
  induction a with
  | nil => intro b; left; rfl
  | cons x xs ih =>
    intro b
    cases b with
    | nil => right; rfl
    | cons y ys =>
      rcases lt_trichotomy x y with h | h | h
      · left; simp [lexLe, h]
      · subst h
        rcases ih ys with h2 | h2
        · left; simp [lexLe, lt_irrefl, h2]
        · right; simp [lexLe, lt_irrefl, h2]
      · right; simp [lexLe, h]

theorem lexLe_trans : ∀ a b c : Chars,
    lexLe a b = true → lexLe b c = true → lexLe a c = true := by
  intro a
  induction a with
  | nil => intro b c _ _; rfl
  | cons x xs ih =>
    intro b c hab hbc
    cases b with
    | nil => simp [lexLe] at hab
    | cons y ys =>
      cases c with
      | nil => simp [lexLe] at hbc
      | cons z zs =>
        by_cases hxy : x < y
        · by_cases hyz : y < z
          · simp [lexLe, lt_trans hxy hyz]
          · by_cases hzy : z < y
            · simp [lexLe, hyz, hzy] at hbc
            · have hyz2 : y = z := le_antisymm (le_of_not_lt hzy) (le_of_not_lt hyz)
              subst hyz2
              simp [lexLe, hxy]
        · by_cases hyx : y < x
          · simp [lexLe, hxy, hyx] at hab
          · have hxy2 : x = y := le_antisymm (le_of_not_lt hyx) (le_of_not_lt hxy)
            subst hxy2
            simp only [lexLe, if_neg (lt_irrefl x)] at hab
            by_cases hxz : x < z
            · simp [lexLe, hxz]
            · by_cases hzx : z < x
              · simp [lexLe, hxz, hzx] at hbc
              · have hxz2 : x = z := le_antisymm (le_of_not_lt hzx) (le_of_not_lt hxz)
                subst hxz2
                simp only [lexLe, if_neg (lt_irrefl x)] at hbc ⊢
                exact ih ys zs hab hbc

instance : IsTotal Chars LexLE := ⟨lexLe_total⟩

instance : IsTrans Chars LexLE := ⟨fun a b c => lexLe_trans a b c⟩

/-- Deduplication (models the effect of Python `set(...)`; the subsequent sort
makes the choice of representatives irrelevant). -/
def dedupL {α : Type} [DecidableEq α] : List α → List α
  | [] => []
  | a :: as => if a ∈ as then dedupL as else a :: dedupL as

theorem mem_dedupL {α : Type} [DecidableEq α] {a : α} :
    ∀ {l : List α}, a ∈ dedupL l ↔ a ∈ l := by
  intro l
  induction l with
  | nil => simp [dedupL]
  | cons b bs ih =>
    by_cases hb : b ∈ bs
    · simp only [dedupL, if_pos hb, ih, List.mem_cons]
      constructor
      · exact Or.inr
      · rintro (rfl | h)
        · exact hb
        · exact h
    · simp [dedupL, if_neg hb, ih]

theorem nodup_dedupL {α : Type} [DecidableEq α] :
    ∀ l : List α, (dedupL l).Nodup := by
  intro l
  induction l with
  | nil => simp [dedupL]
  | cons b bs ih =>
    by_cases hb : b ∈ bs
    · simpa [dedupL, if_pos hb] using ih
    · simp only [dedupL, if_neg hb, List.nodup_cons, mem_dedupL]
      exact ⟨hb, ih⟩

theorem dedupL_eq_self_of_nodup {α : Type} [DecidableEq α] :
    ∀ {l : List α}, l.Nodup → dedupL l = l := by
  intro l
  induction l with
  | nil => intro _; rfl
  | cons b bs ih =>
    intro h
    rw [List.nodup_cons] at h
    simp [dedupL, if_neg h.1, ih h.2]

/-- Concatenation of the images of `f`, the model of a Python loop that
`extend`s an accumulator list. -/
def catMaps {α β : Type} (f : α → List β) : List α → List β
  | [] => []
  | a :: as => f a ++ catMaps f as

theorem mem_catMaps {α β : Type} (f : α → List β) {b : β} :
    ∀ {l : List α}, b ∈ catMaps f l ↔ ∃ a ∈ l, b ∈ f a := by
  intro l
  induction l with
  | nil => simp [catMaps]
  | cons x xs ih => simp [catMaps, ih, List.mem_append]

/-- A tag-list element as seen by `normalize_tags`: a Python string or any
non-`str` value (which the source skips). -/
inductive TagElem : Type
  | str (s : String)
  | other
deriving DecidableEq

/-- One iteration of the `normalize_tags` loop body applied to a string
element: `t.replace('#', '').replace(',', ' ').split()` followed by
lowercasing each part. -/
def tokenizeTag (s : Chars) : List Chars :=
  (splitWS (commaToSpace (stripHash s))).map (List.map lowerChar)

/-- Contribution of one list element to `final_tags`: strings are tokenized,
non-strings contribute nothing (`isinstance(t, str)` guard). -/
def tagElemTokens (x : TagElem) : List Chars :=
  match x with
  | .str s => tokenizeTag s.data
  | .other => []

/-- `normalize_tags` from `src/utils.py`: falsy (empty) input yields `[]`;
otherwise tokenize every string element and return
`sorted(list(set(final_tags)))`. -/
def normalize_tags (xs : List TagElem) : List String :=
  if xs = [] then []
  else (List.insertionSort LexLE (dedupL (catMaps tagElemTokens xs))).map String.mk

/-- Order on strings induced by code-point lexicographic order, to state
sortedness of `normalize_tags` output. -/
def StrLE (a b : String) : Prop := lexLe a.data b.data = true

/-- A fully-normalized token: nonempty, and every character is non-whitespace,
not `#`, not `,`, and fixed by lowercasing. -/
def cleanTok (w : Chars) : Prop :=
  w ≠ [] ∧ ∀ c ∈ w, c.isWhitespace = false ∧ c ≠ '#' ∧ c ≠ ',' ∧ lowerChar c = c

theorem splitWSAux_sound {s acc : Chars} (hacc : ∀ c ∈ acc, c.isWhitespace = false) :
    ∀ w ∈ splitWSAux s acc,
      w ≠ [] ∧ ∀ c ∈ w, c.isWhitespace = false ∧ (c ∈ s ∨ c ∈ acc) := by
  induction s generalizing acc with
  | nil =>
    intro w hw
    by_cases h : acc = []
    · simp [splitWSAux, h] at hw
    · simp only [splitWSAux, if_neg h, List.mem_singleton] at hw
      subst hw
      refine ⟨by simpa using h, ?_⟩
      intro c hc
      rw [List.mem_reverse] at hc
      exact ⟨hacc c hc, Or.inr hc⟩
  | cons x xs ih =>
    intro w hw
    by_cases hws : x.isWhitespace
    · simp only [splitWSAux, if_pos hws] at hw
      by_cases h : acc = []
      · rw [if_pos h] at hw
        obtain ⟨h1, h2⟩ := @ih [] (by simp) w hw
        refine ⟨h1, fun c hc => ?_⟩
        obtain ⟨hc1, hc2⟩ := h2 c hc
        exact ⟨hc1, by simpa using Or.inl (Or.inr (by simpa using hc2))⟩
      · rw [if_neg h] at hw
        rcases List.mem_cons.mp hw with hw1 | hw2
        · subst hw1
          refine ⟨by simpa using h, fun c hc => ?_⟩
          rw [List.mem_reverse] at hc
          exact ⟨hacc c hc, Or.inr hc⟩
        · obtain ⟨h1, h2⟩ := @ih [] (by simp) w hw2
          refine ⟨h1, fun c hc => ?_⟩
          obtain ⟨hc1, hc2⟩ := h2 c hc
          exact ⟨hc1, by simpa using Or.inl (Or.inr (by simpa using hc2))⟩
    · simp only [splitWSAux, if_neg hws] at hw
      have hacc2 : ∀ c ∈ x :: acc, c.isWhitespace = false := by
        intro c hc
        rcases List.mem_cons.mp hc with rfl | hc2
        · simpa using hws
        · exact hacc c hc2
      obtain ⟨h1, h2⟩ := @ih (x :: acc) hacc2 w hw
      refine ⟨h1, fun c hc => ?_⟩
      obtain ⟨hc1, hc2⟩ := h2 c hc
      refine ⟨hc1, ?_⟩
      rcases hc2 with hc2 | hc2
      · exact Or.inl (List.mem_cons_of_mem _ hc2)
      · rcases List.mem_cons.mp hc2 with rfl | hc3
        · exact Or.inl (List.mem_cons_self _ _)
        · exact Or.inr hc3

theorem splitWS_sound {s : Chars} :
    ∀ w ∈ splitWS s, w ≠ [] ∧ ∀ c ∈ w, c.isWhitespace = false ∧ c ∈ s := by
  intro w hw
  obtain ⟨h1, h2⟩ := @splitWSAux_sound s [] (by simp) w hw
  refine ⟨h1, fun c hc => ?_⟩
  obtain ⟨hc1, hc2⟩ := h2 c hc
  exact ⟨hc1, by simpa using hc2⟩

theorem splitWSAux_no_ws {s acc : Chars} (hs : ∀ c ∈ s, c.isWhitespace = false) :
    splitWSAux s acc =
      if acc = [] ∧ s = [] then [] else [acc.reverse ++ s] := by
  induction s generalizing acc with
  | nil =>
    by_cases h : acc = [] <;> simp [splitWSAux, h]
  | cons x xs ih =>
    have hx : x.isWhitespace = false := hs x (List.mem_cons_self _ _)
    have hxs : ∀ c ∈ xs, c.isWhitespace = false :=
      fun c hc => hs c (List.mem_cons_of_mem _ hc)
    simp only [splitWSAux, hx, Bool.false_eq_true, if_false, ih hxs]
    rw [if_neg (by simp)]
    simp

theorem splitWS_single {s : Chars} (h1 : s ≠ [])
    (h2 : ∀ c ∈ s, c.isWhitespace = false) : splitWS s = [s] := by
  unfold splitWS
  rw [splitWSAux_no_ws h2, if_neg (by simp [h1])]
  simp

theorem filter_all_eq {α : Type} {p : α → Bool} :
    ∀ {l : List α}, (∀ a ∈ l, p a = true) → l.filter p = l := by
  intro l
  induction l with
  | nil => intro _; rfl
  | cons x xs ih =>
    intro h
    rw [List.filter_cons, if_pos (h x (List.mem_cons_self _ _))]
    rw [ih (fun a ha => h a (List.mem_cons_of_mem _ ha))]

theorem map_id_all {α : Type} {f : α → α} :
    ∀ {l : List α}, (∀ a ∈ l, f a = a) → l.map f = l := by
  intro l
  induction l with
  | nil => intro _; rfl
  | cons x xs ih =>
    intro h
    rw [List.map_cons, h x (List.mem_cons_self _ _),
        ih (fun a ha => h a (List.mem_cons_of_mem _ ha))]

/-- Characters with code point at least 97 are not whitespace, `#`, or `,`. -/
theorem char_big_clean {c : Char} (h : 97 ≤ c.toNat) :
    c.isWhitespace = false ∧ c ≠ '#' ∧ c ≠ ',' := by
  refine ⟨?_, ?_, ?_⟩
  · by_contra hws
    rw [Bool.not_eq_false] at hws
    simp only [Char.isWhitespace, Bool.or_eq_true, beq_iff_eq,
      decide_eq_true_eq] at hws
    rcases hws with ((rfl | rfl) | rfl) | rfl <;> exact absurd h (by decide)
  · rintro rfl; exact absurd h (by decide)
  · rintro rfl; exact absurd h (by decide)

theorem lowerChar_clean {c : Char} (hws : c.isWhitespace = false)
    (hh : c ≠ '#') (hcm : c ≠ ',') :
    (lowerChar c).isWhitespace = false ∧ lowerChar c ≠ '#' ∧ lowerChar c ≠ ',' := by
  by_cases h : c.toNat ≥ 65 ∧ c.toNat ≤ 90
  · exact char_big_clean (by rw [toNat_lowerChar_of c h]; omega)
  · rw [lowerChar_eq_self c h]; exact ⟨hws, hh, hcm⟩

theorem mem_stripHash {s : Chars} {c : Char} (h : c ∈ stripHash s) :
    c ∈ s ∧ c ≠ '#' := by
  unfold stripHash at h
  rw [List.mem_filter] at h
  exact ⟨h.1, by simpa using h.2⟩

theorem mem_commaToSpace {s : Chars} {c : Char} (h : c ∈ commaToSpace s) :
    c ≠ ',' ∧ (c ∈ s ∨ c = ' ') := by
  unfold commaToSpace at h
  rw [List.mem_map] at h
  obtain ⟨d, hd, hdc⟩ := h
  by_cases hdc2 : d = ','
  · subst hdc2
    rw [if_pos rfl] at hdc
    subst hdc
    exact ⟨by decide, Or.inr rfl⟩
  · rw [if_neg hdc2] at hdc
    subst hdc
    exact ⟨hdc2, Or.inl hd⟩

theorem tokenizeTag_clean {s : Chars} : ∀ w ∈ tokenizeTag s, cleanTok w := by
  intro w hw
  unfold tokenizeTag at hw
  rw [List.mem_map] at hw
  obtain ⟨v, hv, hvw⟩ := hw
  obtain ⟨hv1, hv2⟩ := splitWS_sound v hv
  subst hvw
  constructor
  · simpa using hv1
  · intro c hc
    rw [List.mem_map] at hc
    obtain ⟨d, hd, hdc⟩ := hc
    obtain ⟨hd1, hd2⟩ := hv2 d hd
    obtain ⟨hd3, hd4⟩ := mem_commaToSpace hd2
    have hd5 : d ≠ '#' := by
      rcases hd4 with hd4 | hd4
      · exact (mem_stripHash hd4).2
      · subst hd4; decide
    subst hdc
    obtain ⟨hc1, hc2, hc3⟩ := lowerChar_clean hd1 hd5 hd3
    exact ⟨hc1, hc2, hc3, lowerChar_idem d⟩

theorem tokenizeTag_of_clean {w : Chars} (h : cleanTok w) : tokenizeTag w = [w] := by
  obtain ⟨h1, h2⟩ := h
  unfold tokenizeTag
  have hsh : stripHash w = w :=
    filter_all_eq (fun a ha => by simpa using (h2 a ha).2.1)
  have hcs : commaToSpace w = w :=
    map_id_all (fun a ha => by simp [(h2 a ha).2.2.1])
  rw [hsh, hcs, splitWS_single h1 (fun c hc => (h2 c hc).1)]
  simp only [List.map_cons, List.map_nil]
  rw [map_id_all (fun a ha => (h2 a ha).2.2.2)]

theorem string_mk_injective : Function.Injective String.mk :=
  fun a b h => congrArg String.data h

theorem normCore_facts (xs : List TagElem) :
    List.Sorted LexLE (List.insertionSort LexLE (dedupL (catMaps tagElemTokens xs)))
    ∧ (List.insertionSort LexLE (dedupL (catMaps tagElemTokens xs))).Nodup
    ∧ ∀ w ∈ List.insertionSort LexLE (dedupL (catMaps tagElemTokens xs)),
        cleanTok w := by
  have hperm := List.perm_insertionSort LexLE (dedupL (catMaps tagElemTokens xs))
  refine ⟨List.sorted_insertionSort _ _, hperm.symm.nodup (nodup_dedupL _), ?_⟩
  intro w hw
  have hw2 : w ∈ dedupL (catMaps tagElemTokens xs) := hperm.mem_iff.mp hw
  rw [mem_dedupL, mem_catMaps] at hw2
  obtain ⟨a, _, hwa⟩ := hw2
  cases a with
  | str s => exact tokenizeTag_clean w hwa
  | other => simp [tagElemTokens] at hwa

theorem normalize_tags_ne {xs : List TagElem} (h : xs ≠ []) :
    normalize_tags xs
      = (List.insertionSort LexLE (dedupL (catMaps tagElemTokens xs))).map
          String.mk := by
  unfold normalize_tags
  rw [if_neg h]

theorem catMaps_tokenize (L : List Chars) (h : ∀ w ∈ L, cleanTok w) :
    catMaps tagElemTokens ((L.map String.mk).map TagElem.str) = L := by
  induction L with
  | nil => rfl
  | cons w ws ih =>
    simp only [List.map_cons, catMaps, tagElemTokens]
    rw [tokenizeTag_of_clean (h w (List.mem_cons_self _ _))]
    rw [ih (fun v hv => h v (List.mem_cons_of_mem _ hv))]
    rfl

/-- C9: `normalize_tags` is idempotent, and its output is always a sorted
(code-point lexicographic), duplicate-free sequence of nonempty lowercase
tokens containing neither `#` nor `,` nor whitespace; empty input yields the
empty sequence. -/
theorem normalize_tags_props :
    (∀ xs, normalize_tags ((normalize_tags xs).map TagElem.str) = normalize_tags xs)
    ∧ (∀ xs, List.Sorted StrLE (normalize_tags xs)
        ∧ (normalize_tags xs).Nodup
        ∧ ∀ y ∈ normalize_tags xs, y.data ≠ [] ∧
            ∀ c ∈ y.data, lowerChar c = c ∧ c ≠ '#')
    ∧ normalize_tags [] = [] := by
  have hspec : ∀ xs, List.Sorted StrLE (normalize_tags xs)
      ∧ (normalize_tags xs).Nodup
      ∧ ∀ y ∈ normalize_tags xs, cleanTok y.data := by
    intro xs
    unfold normalize_tags
    by_cases h : xs = []
    · simp [h, List.Sorted]
    · rw [if_neg h]
      obtain ⟨hsort, hnodup, hclean⟩ := normCore_facts xs
      refine ⟨?_, hnodup.map string_mk_injective, ?_⟩
      · unfold List.Sorted at *
        rw [List.pairwise_map]
        exact hsort
      · intro y hy
        rw [List.mem_map] at hy
        obtain ⟨w, hw, rfl⟩ := hy
        exact hclean w hw
  refine ⟨?_, ?_, rfl⟩
  · intro xs
    by_cases h : xs = []
    · subst h
      rfl
    · obtain ⟨hsorted, hnodup, hclean⟩ := hspec xs
      by_cases hy : normalize_tags xs = []
      · rw [hy]
        rfl
      · obtain ⟨hsortL, hnodupL, hcleanL⟩ := normCore_facts xs
        have hmapne : (normalize_tags xs).map TagElem.str ≠ [] := by
          simpa using hy
        rw [normalize_tags_ne hmapne, normalize_tags_ne h,
            catMaps_tokenize _ hcleanL, dedupL_eq_self_of_nodup hnodupL,
            hsortL.insertionSort_eq]
  · intro xs
    obtain ⟨h1, h2, h3⟩ := hspec xs
    refine ⟨h1, h2, fun y hy => ?_⟩
    obtain ⟨hne, hall⟩ := h3 y hy
    exact ⟨hne, fun c hc => ⟨(hall c hc).2.2.2, (hall c hc).2.1⟩⟩

/-- Concrete check of C9: idempotence at a specific input, with the
normalization result computed explicitly. -/
theorem normalize_tags_props_witness :
    normalize_tags ((normalize_tags [TagElem.str "#Foo, bar"]).map TagElem.str)
      = normalize_tags [TagElem.str "#Foo, bar"]
    ∧ normalize_tags [TagElem.str "#Foo, bar"] = ["bar", "foo"] :=
  ⟨normalize_tags_props.1 [TagElem.str "#Foo, bar"], by decide⟩

/-- A calendar date as Python's `datetime.date`: year/month/day with the
month and day ranges that any `datetime.date` value satisfies. -/
structure DateYMD where
  y : Nat
  m : Nat
  d : Nat
  hm : 1 ≤ m ∧ m ≤ 12
  hd : 1 ≤ d ∧ d ≤ 31

theorem DateYMD.ext_ymd {a b : DateYMD}
    (hy : a.y = b.y) (hm : a.m = b.m) (hd : a.d = b.d) : a = b := by
  cases a; cases b
  simp only at hy hm hd
  subst hy; subst hm; subst hd
  rfl

instance : DecidableEq DateYMD := fun a b =>
  decidable_of_iff (a.y = b.y ∧ a.m = b.m ∧ a.d = b.d)
    ⟨fun h => DateYMD.ext_ymd h.1 h.2.1 h.2.2, fun h => by subst h; exact ⟨rfl, rfl, rfl⟩⟩

/-- The regex facility used by `pandas.Series.str.contains`: whether a pattern
compiles, and whether a (case-insensitive) regex search of the pattern hits a
given string.  Kept abstract: the theorems hold for every matcher. -/
structure Re where
  compiles : String → Bool
  search : String → String → Bool

/-- `'|'.join(patterns)`. -/
def joinBar (pats : List String) : String := String.intercalate "|" pats

/-- A category rule `{'name': ..., 'match': [...], 'necessity': ...}` from
`rules.yaml` (we model rules whose `name`/`tag` key is present; `necessity`
is `some` exactly when the key is present and truthy). -/
structure CatRule where
  name : String
  mpatterns : List String
  necessity : Option String

/-- A tag rule `{'tag': ..., 'match': [...]}` from `rules.yaml`. -/
structure TagRule where
  tag : String
  mpatterns : List String

/-- The rule document; a missing `categories`/`tags` key is the empty list. -/
structure RulesDoc where
  categories : List CatRule
  tagRules : List TagRule

/-- A canonical ledger row (one row of the pandas frame inside
`_process_and_insert`, and one row of the `transactions` table). -/
structure Row where
  date : Option DateYMD
  account : String
  rtype : String
  category : Option String
  amount : ℚ
  currency : String
  description : String
  tags : List String
  source_file : String
  original_description : String
  necessity : Option String
deriving DecidableEq

/-- The overwrite a category rule performs on a matching row: `category` is
set to the rule's name, and `necessity` is set when the rule specifies one. -/
def catRowUpd (rule : CatRule) (r : Row) : Row :=
  match rule.necessity with
  | some n => { r with category := some rule.name, necessity := some n }
  | none => { r with category := some rule.name }

/-- One category-rule pass of `RulesEngine.apply_rules`: an empty combined
pattern skips the rule; a non-compiling pattern raises (`re.error` from
`str.contains`); otherwise every matching row is overwritten. -/
def applyCatRulePass (re : Re) (rule : CatRule) (rows : List Row) :
    Except Unit (List Row) :=
  if joinBar rule.mpatterns = "" then .ok rows
  else if re.compiles (joinBar rule.mpatterns) then
    .ok (rows.map fun r =>
      if re.search (joinBar rule.mpatterns) r.description then catRowUpd rule r
      else r)
  else .error ()

/-- One tag-rule pass of `RulesEngine.apply_rules`: tags are additive, the
rule's tag is appended when absent. -/
def applyTagRulePass (re : Re) (rule : TagRule) (rows : List Row) :
    Except Unit (List Row) :=
  if joinBar rule.mpatterns = "" then .ok rows
  else if re.compiles (joinBar rule.mpatterns) then
    .ok (rows.map fun r =>
      if re.search (joinBar rule.mpatterns) r.description then
        { r with tags := if rule.tag ∈ r.tags then r.tags else r.tags ++ [rule.tag] }
      else r)
  else .error ()

/-- Sequencing of independent full-row-set passes, one per rule, in list
order. -/
def foldPasses {ρ : Type} (f : ρ → List Row → Except Unit (List Row)) :
    List ρ → List Row → Except Unit (List Row)
  | [], rows => .ok rows
  | rule :: rs, rows =>
    match f rule rows with
    | .ok rows2 => foldPasses f rs rows2
    | .error e => .error e

/-- `RulesEngine.apply_rules`: empty frame returned unchanged; otherwise
default `necessity` to `'Want'` (the ingestion frame has no such column, so
in the record model every row's missing value is filled), then run every
category rule and every tag rule as an independent pass in list order. -/
def apply_rules (re : Re) (doc : RulesDoc) (rows : List Row) :
    Except Unit (List Row) :=
  if rows = [] then .ok rows
  else
    match foldPasses (applyCatRulePass re) doc.categories
        (rows.map fun r => { r with necessity := some (r.necessity.getD "Want") }) with
    | .ok rows2 => foldPasses (applyTagRulePass re) doc.tagRules rows2
    | .error e => .error e

/-- The fixed keyword list of `auto_tag_from_description`. -/
def autoKeywords : List String := ["luce", "gas", "internet", "taxi", "uber", "amazon"]

/-- `RulesEngine.auto_tag_from_description`: for each built-in keyword, append
it as a tag to every row whose description matches it. -/
def auto_tag_from_description (re : Re) (rows : List Row) :
    Except Unit (List Row) :=
  foldPasses (fun kw rows =>
    if re.compiles kw then
      .ok (rows.map fun r =>
        if re.search kw r.description then
          { r with tags := if kw ∈ r.tags then r.tags else r.tags ++ [kw] }
        else r)
    else .error ()) autoKeywords rows

/-- The raw tag field of one CSV row (`Labels` column) after `fillna('')`:
`none` models the filled-in missing value. -/
inductive TagField : Type
  | str (s : String)
  | lst (l : List TagElem)
deriving DecidableEq

/-- `handle_raw_tags` from `_process_and_insert`: falsy input gives `[]`,
lists go to `normalize_tags` directly, scalars are wrapped in a list. -/
def handle_raw_tags (x : Option TagField) : List String :=
  match x with
  | none => []
  | some (.str s) => if s = "" then [] else normalize_tags [TagElem.str s]
  | some (.lst l) => if l = [] then [] else normalize_tags l

/-- One raw CSV row after column renaming.  `date` is the result of
`pd.to_datetime(..., errors='coerce')` (`none` = NaT) and `amount` the result
of `clean_currency` (always a number), which is where the sign claims start. -/
structure RawRow where
  date : Option DateYMD
  account : String
  rtype : String
  category : Option String
  amount : ℚ
  currency : String
  description : Option String
  tags : Option TagField
deriving DecidableEq

/-- The unconditional sign coercion of `_process_and_insert`:
expenses become `-abs`, income becomes `abs`, other types are untouched. -/
def forceSign (rtype : String) (a : ℚ) : ℚ :=
  if rtype = "Expense" then -|a| else if rtype = "Income" then |a| else a

/-- Row-wise normalization portion of `_process_and_insert` before the rules
engine runs: fill description/tags, stamp provenance, copy
`original_description`, coerce the amount sign, normalize tags. -/
def toCanonicalRow (filename : String) (r : RawRow) : Row :=
  let desc := r.description.getD ""
  { date := r.date
    account := r.account
    rtype := r.rtype
    category := r.category
    amount := forceSign r.rtype r.amount
    currency := r.currency
    description := desc
    tags := handle_raw_tags r.tags
    source_file := filename
    original_description := desc
    necessity := none }

/-- `_process_and_insert` from `src/data_manager.py` as a function from the
raw batch to the list of rows inserted into `transactions` (an exception from
a non-compiling rule pattern propagates as `.error`). -/
def process_and_insert (re : Re) (doc : RulesDoc) (filename : String)
    (raws : List RawRow) : Except Unit (List Row) :=
  match apply_rules re doc (raws.map (toCanonicalRow filename)) with
  | .ok rows2 => auto_tag_from_description re rows2
  | .error e => .error e

/-- Row transformations produced by rule passes never touch the amount, the
type, or the description of a row. -/
def PreservesCore (g : Row → Row) : Prop :=
  ∀ r, (g r).amount = r.amount ∧ (g r).rtype = r.rtype
    ∧ (g r).description = r.description

theorem preservesCore_id : PreservesCore (fun r => r) := fun _ => ⟨rfl, rfl, rfl⟩

theorem preservesCore_comp {g1 g2 : Row → Row} (h1 : PreservesCore g1)
    (h2 : PreservesCore g2) : PreservesCore (fun r => g2 (g1 r)) := by
  intro r
  obtain ⟨a1, b1, c1⟩ := h1 r
  obtain ⟨a2, b2, c2⟩ := h2 (g1 r)
  exact ⟨a2.trans a1, b2.trans b1, c2.trans c1⟩

theorem applyCatRulePass_shape {re rule rows out}
    (h : applyCatRulePass re rule rows = .ok out) :
    ∃ g, PreservesCore g ∧ out = rows.map g := by
  unfold applyCatRulePass at h
  split_ifs at h with h1 h2
  · refine ⟨fun r => r, preservesCore_id, ?_⟩
    simp only [Except.ok.injEq] at h
    rw [← h, List.map_id']
  · simp only [Except.ok.injEq] at h
    refine ⟨_, ?_, h.symm⟩
    intro r
    dsimp only
    split
    · unfold catRowUpd
      split <;> exact ⟨rfl, rfl, rfl⟩
    · exact ⟨rfl, rfl, rfl⟩

theorem applyTagRulePass_shape {re rule rows out}
    (h : applyTagRulePass re rule rows = .ok out) :
    ∃ g, PreservesCore g ∧ out = rows.map g := by
  unfold applyTagRulePass at h
  split_ifs at h with h1 h2
  · refine ⟨fun r => r, preservesCore_id, ?_⟩
    simp only [Except.ok.injEq] at h
    rw [← h, List.map_id']
  · simp only [Except.ok.injEq] at h
    refine ⟨_, ?_, h.symm⟩
    intro r
    dsimp only
    split <;> exact ⟨rfl, rfl, rfl⟩

theorem foldPasses_shape_gen {ρ : Type} {P : (Row → Row) → Prop}
    {f : ρ → List Row → Except Unit (List Row)}
    (hid : P (fun r => r))
    (hcomp : ∀ {g1 g2}, P g1 → P g2 → P (fun r => g2 (g1 r)))
    (hf : ∀ rule rows out, f rule rows = .ok out →
      ∃ g, P g ∧ out = rows.map g) :
    ∀ (rs : List ρ) (rows out : List Row), foldPasses f rs rows = .ok out →
      ∃ g, P g ∧ out = rows.map g := by
  intro rs
  induction rs with
  | nil =>
    intro rows out h
    simp only [foldPasses, Except.ok.injEq] at h
    refine ⟨fun r => r, hid, ?_⟩
    rw [← h, List.map_id']
  | cons rule rest ih =>
    intro rows out h
    simp only [foldPasses] at h
    cases hf1 : f rule rows with
    | error e => rw [hf1] at h; exact absurd h (by simp)
    | ok mid =>
      rw [hf1] at h
      obtain ⟨g1, hg1, rfl⟩ := hf rule rows mid hf1
      obtain ⟨g2, hg2, hout⟩ := ih _ _ h
      exact ⟨fun r => g2 (g1 r), hcomp hg1 hg2,
        by rw [hout, List.map_map]; rfl⟩

theorem foldPasses_shape {ρ : Type} {f : ρ → List Row → Except Unit (List Row)}
    (hf : ∀ rule rows out, f rule rows = .ok out →
      ∃ g, PreservesCore g ∧ out = rows.map g) :
    ∀ (rs : List ρ) (rows out : List Row), foldPasses f rs rows = .ok out →
      ∃ g, PreservesCore g ∧ out = rows.map g :=
  foldPasses_shape_gen preservesCore_id (fun h1 h2 => preservesCore_comp h1 h2) hf

theorem apply_rules_shape {re doc rows out}
    (h : apply_rules re doc rows = .ok out) :
    ∃ g, PreservesCore g ∧ out = rows.map g := by
  unfold apply_rules at h
  split_ifs at h with h1
  · simp only [Except.ok.injEq] at h
    refine ⟨fun r => r, preservesCore_id, ?_⟩
    rw [← h, List.map_id']
  · cases hc : foldPasses (applyCatRulePass re) doc.categories
        (rows.map fun r => { r with necessity := some (r.necessity.getD "Want") }) with
    | error e => rw [hc] at h; exact absurd h (by simp)
    | ok mid =>
      rw [hc] at h
      obtain ⟨g1, hg1, hmid⟩ :=
        foldPasses_shape (fun rule rows out => applyCatRulePass_shape)
          doc.categories _ mid hc
      obtain ⟨g2, hg2, hout⟩ :=
        foldPasses_shape (fun rule rows out => applyTagRulePass_shape)
          doc.tagRules mid out h
      subst hmid
      rw [List.map_map, List.map_map] at hout
      refine ⟨_, ?_, hout⟩
      intro r
      simp only [Function.comp_apply]
      obtain ⟨a1, b1, c1⟩ := hg1 { r with necessity := some (r.necessity.getD "Want") }
      obtain ⟨a2, b2, c2⟩ := hg2 (g1 { r with necessity := some (r.necessity.getD "Want") })
      exact ⟨a2.trans a1, b2.trans b1, c2.trans c1⟩

theorem auto_tag_shape {re rows out}
    (h : auto_tag_from_description re rows = .ok out) :
    ∃ g, PreservesCore g ∧ out = rows.map g := by
  unfold auto_tag_from_description at h
  refine foldPasses_shape ?_ autoKeywords rows out h
  intro kw rows2 out2 h2
  split_ifs at h2 with hc
  · simp only [Except.ok.injEq] at h2
    refine ⟨_, ?_, h2.symm⟩
    intro r
    dsimp only
    split <;> exact ⟨rfl, rfl, rfl⟩

theorem process_and_insert_shape {re doc filename raws out}
    (h : process_and_insert re doc filename raws = .ok out) :
    ∃ g, PreservesCore g
      ∧ out = (raws.map (toCanonicalRow filename)).map g := by
  unfold process_and_insert at h
  cases ha : apply_rules re doc (raws.map (toCanonicalRow filename)) with
  | error e => rw [ha] at h; exact absurd h (by simp)
  | ok mid =>
    rw [ha] at h
    obtain ⟨g1, hg1, rfl⟩ := apply_rules_shape ha
    obtain ⟨g2, hg2, hout⟩ := auto_tag_shape h
    rw [List.map_map] at hout
    refine ⟨_, ?_, hout⟩
    intro r
    simp only [Function.comp_apply]
    obtain ⟨a1, b1, c1⟩ := hg1 r
    obtain ⟨a2, b2, c2⟩ := hg2 (g1 r)
    exact ⟨a2.trans a1, b2.trans b1, c2.trans c1⟩

/-- C1: every row produced by `_process_and_insert` has its amount sign forced
to agree with the declared type: `Expense` rows satisfy
`amount = -abs(amount)` (hence `amount ≤ 0`) and `Income` rows satisfy
`amount = abs(amount)` (hence `amount ≥ 0`), whatever sign the raw amount
carried and whatever rules run afterwards. -/
theorem process_and_insert_sign (re : Re) (doc : RulesDoc) (filename : String)
    (raws : List RawRow) (out : List Row)
    (h : process_and_insert re doc filename raws = .ok out) :
    ∀ r ∈ out,
      (r.rtype = "Expense" → r.amount = -|r.amount| ∧ r.amount ≤ 0)
      ∧ (r.rtype = "Income" → r.amount = |r.amount| ∧ 0 ≤ r.amount) := by
  obtain ⟨g, hg, rfl⟩ := process_and_insert_shape h
  intro r hr
  rw [List.mem_map] at hr
  obtain ⟨r0, hr0, rfl⟩ := hr
  rw [List.mem_map] at hr0
  obtain ⟨raw, _, rfl⟩ := hr0
  obtain ⟨hamt, hty, _⟩ := hg (toCanonicalRow filename raw)
  rw [hamt, hty]
  simp only [toCanonicalRow]
  constructor
  · intro hexp
    rw [forceSign, if_pos hexp]
    constructor
    · rw [abs_neg, abs_abs]
    · simp [neg_nonpos]
  · intro hinc
    have hne : raw.rtype ≠ "Expense" := by
      rw [hinc]; decide
    rw [forceSign, if_neg hne, if_pos hinc]
    constructor
    · rw [abs_abs]
    · exact abs_nonneg _

/-- A concrete matcher for witnesses: every pattern compiles, and a search
hits exactly when the pattern equals the whole description. -/
def reEq : Re := ⟨fun _ => true, fun pat desc => pat == desc⟩

/-- A concrete raw row for witnesses: an `Expense` exported with positive
amount 3. -/
def rawExp3 : RawRow :=
  { date := none, account := "W", rtype := "Expense", category := none,
    amount := 3, currency := "EUR", description := none, tags := none }

/-- Concrete check of C1: a raw `Expense` row with positive amount 3 is
ingested and ends with a non-positive amount equal to `-abs(amount)`. -/
theorem process_and_insert_sign_witness :
    ∃ out, process_and_insert reEq ⟨[], []⟩ "f.csv" [rawExp3] = .ok out
      ∧ ∀ r ∈ out,
        (r.rtype = "Expense" → r.amount = -|r.amount| ∧ r.amount ≤ 0)
        ∧ (r.rtype = "Income" → r.amount = |r.amount| ∧ 0 ≤ r.amount) := by
  refine ⟨_, rfl, ?_⟩
  exact process_and_insert_sign reEq ⟨[], []⟩ "f.csv" [rawExp3] _ rfl

/-- The effect of one category rule on one row, as seen after a full pass:
the row is overwritten exactly when the combined pattern is nonempty and the
regex search of the description hits. -/
def catRowApply (re : Re) (rule : CatRule) (r : Row) : Row :=
  if joinBar rule.mpatterns = "" then r
  else if re.search (joinBar rule.mpatterns) r.description then catRowUpd rule r
  else r

/-- Whether a category rule matches a row: nonempty combined pattern and a
regex hit on the description. -/
def catMatchPred (re : Re) (r : Row) (rule : CatRule) : Bool :=
  decide (joinBar rule.mpatterns ≠ "")
    && re.search (joinBar rule.mpatterns) r.description

theorem catRowApply_description (re : Re) (rule : CatRule) (r : Row) :
    (catRowApply re rule r).description = r.description := by
  unfold catRowApply catRowUpd
  split_ifs
  · rfl
  · split <;> rfl
  · rfl

theorem catRowApply_matched {re : Re} {rule : CatRule} {r : Row}
    (h : catMatchPred re r rule = true) :
    (catRowApply re rule r).category = some rule.name := by
  rw [catMatchPred, Bool.and_eq_true, decide_eq_true_eq] at h
  unfold catRowApply catRowUpd
  rw [if_neg h.1, if_pos h.2]
  split <;> rfl

theorem catRowApply_unmatched {re : Re} {rule : CatRule} {r : Row}
    (h : catMatchPred re r rule = false) : catRowApply re rule r = r := by
  rw [catMatchPred, Bool.and_eq_false_iff] at h
  unfold catRowApply
  rcases h with h | h
  · rw [decide_eq_false_iff_not, not_not] at h
    rw [if_pos h]
  · simp [h]

theorem applyCatRulePass_ok_eq {re : Re} {rule : CatRule} {rows out : List Row}
    (h : applyCatRulePass re rule rows = .ok out) :
    out = rows.map (catRowApply re rule) := by
  unfold applyCatRulePass at h
  split_ifs at h with h1 h2
  · simp only [Except.ok.injEq] at h
    subst h
    have : catRowApply re rule = fun r => r := funext fun r => by
      unfold catRowApply
      rw [if_pos h1]
    rw [this, List.map_id']
  · simp only [Except.ok.injEq] at h
    subst h
    have : catRowApply re rule = fun r =>
        if re.search (joinBar rule.mpatterns) r.description then catRowUpd rule r
        else r := funext fun r => by
      unfold catRowApply
      rw [if_neg h1]
    rw [this]

theorem catFold_ok {re : Re} : ∀ (rules : List CatRule) (rows out : List Row),
    foldPasses (applyCatRulePass re) rules rows = .ok out →
    out = rows.map (fun r => rules.foldl (fun r rule => catRowApply re rule r) r) := by
  intro rules
  induction rules with
  | nil =>
    intro rows out h
    simp only [foldPasses, Except.ok.injEq] at h
    simp only [List.foldl_nil, List.map_id']
    exact h.symm
  | cons rule rest ih =>
    intro rows out h
    simp only [foldPasses] at h
    cases hf1 : applyCatRulePass re rule rows with
    | error e => rw [hf1] at h; exact absurd h (by simp)
    | ok mid =>
      rw [hf1] at h
      have hmid := applyCatRulePass_ok_eq hf1
      subst hmid
      rw [ih _ _ h, List.map_map]
      rfl

theorem getLast?_cons_eq {α : Type} (a : α) (l : List α) :
    (a :: l).getLast? = some (match l.getLast? with | some x => x | none => a) := by
  induction l generalizing a with
  | nil => rfl
  | cons b bs ih =>
    rw [List.getLast?_cons_cons, ih b]

theorem foldl_cat_category {re : Re} :
    ∀ (rules : List CatRule) (r : Row),
      (rules.foldl (fun r rule => catRowApply re rule r) r).category
        = match (rules.filter (catMatchPred re r)).getLast? with
          | some rl => some rl.name
          | none => r.category := by
  intro rules
  induction rules with
  | nil => intro r; rfl
  | cons rule rest ih =>
    intro r
    rw [List.foldl_cons]
    have hdesc : ∀ rule2, catMatchPred re (catRowApply re rule r) rule2
        = catMatchPred re r rule2 := by
      intro rule2
      unfold catMatchPred
      rw [catRowApply_description]
    have hfilter : rest.filter (catMatchPred re (catRowApply re rule r))
        = rest.filter (catMatchPred re r) :=
      List.filter_congr (fun a _ => hdesc a)
    rw [ih (catRowApply re rule r), hfilter]
    cases hp : catMatchPred re r rule with
    | true =>
      rw [List.filter_cons_of_pos hp, getLast?_cons_eq]
      cases hl : (rest.filter (catMatchPred re r)).getLast? with
      | some rl => rfl
      | none => exact catRowApply_matched hp
    | false =>
      rw [List.filter_cons_of_neg (by rw [hp]; exact Bool.false_ne_true)]
      cases hl : (rest.filter (catMatchPred re r)).getLast? with
      | some rl => rfl
      | none => rw [catRowApply_unmatched hp]

/-- Tag passes never touch `category` or `description`. -/
def PreservesCatDesc (g : Row → Row) : Prop :=
  ∀ r, (g r).category = r.category ∧ (g r).description = r.description

theorem applyTagRulePass_shape_cat {re : Re} {rule : TagRule} {rows out : List Row}
    (h : applyTagRulePass re rule rows = .ok out) :
    ∃ g, PreservesCatDesc g ∧ out = rows.map g := by
  unfold applyTagRulePass at h
  split_ifs at h with h1 h2
  · refine ⟨fun r => r, fun _ => ⟨rfl, rfl⟩, ?_⟩
    simp only [Except.ok.injEq] at h
    rw [← h, List.map_id']
  · simp only [Except.ok.injEq] at h
    refine ⟨_, ?_, h.symm⟩
    intro r
    dsimp only
    split <;> exact ⟨rfl, rfl⟩

/-- C2: category rules are applied as independent passes over the whole batch
in list order, so the final `category` of the i-th row is the name of the
**last** rule in the list matching that row's description (its original
category when no rule matches). -/
theorem apply_rules_last_match (re : Re) (doc : RulesDoc) (rows out : List Row)
    (h : apply_rules re doc rows = .ok out) :
    ∀ i r, rows.get? i = some r →
      ∃ r2, out.get? i = some r2 ∧
        r2.category =
          match (doc.categories.filter (catMatchPred re r)).getLast? with
          | some rl => some rl.name
          | none => r.category := by
  unfold apply_rules at h
  split_ifs at h with h1
  · subst h1
    intro i r hir
    simp at hir
  · cases hc : foldPasses (applyCatRulePass re) doc.categories
        (rows.map fun r => { r with necessity := some (r.necessity.getD "Want") }) with
    | error e => rw [hc] at h; exact absurd h (by simp)
    | ok mid =>
      rw [hc] at h
      have hmid := catFold_ok doc.categories _ _ hc
      obtain ⟨g, hg, hout⟩ :=
        @foldPasses_shape_gen _ PreservesCatDesc _ (fun _ => ⟨rfl, rfl⟩)
          (fun hg1 hg2 r => ⟨((hg2 _).1).trans ((hg1 r).1),
            ((hg2 _).2).trans ((hg1 r).2)⟩)
          (fun rule rows out h => applyTagRulePass_shape_cat h)
          doc.tagRules mid out h
      subst hmid
      subst hout
      intro i r hir
      refine ⟨g (List.foldl (fun r rule => catRowApply re rule r)
          { r with necessity := some (r.necessity.getD "Want") } doc.categories),
        ?_, ?_⟩
      · rw [List.get?_map, List.get?_map, List.get?_map, hir]
        rfl
      · rw [(hg _).1]
        exact foldl_cat_category doc.categories
          { r with necessity := some (r.necessity.getD "Want") }

/-- A category rule named `A` matching description `x`. -/
def catA : CatRule := { name := "A", mpatterns := ["x"], necessity := none }

/-- A category rule named `B`, later in the list, also matching `x`. -/
def catB : CatRule := { name := "B", mpatterns := ["x"], necessity := none }

/-- A concrete canonical row with description `x`. -/
def rowX : Row :=
  { date := none, account := "W", rtype := "Expense", category := none,
    amount := -3, currency := "EUR", description := "x", tags := [],
    source_file := "f.csv", original_description := "x", necessity := none }

/-- Concrete check of C2: a row matched by two category rules ends with the
later rule's name. -/
theorem apply_rules_last_match_witness :
    ∃ out, apply_rules reEq ⟨[catA, catB], []⟩ [rowX] = .ok out
      ∧ ∃ r2, out.get? 0 = some r2 ∧ r2.category = some "B" := by
  refine ⟨_, rfl, ?_⟩
  obtain ⟨r2, h1, h2⟩ :=
    apply_rules_last_match reEq ⟨[catA, catB], []⟩ [rowX] _ rfl 0 rowX rfl
  refine ⟨r2, h1, ?_⟩
  rw [h2]
  rfl

/-- A matcher under which the single pattern `(` does not compile (as in
Python's `re`), while everything else does. -/
def reParen : Re := ⟨fun p => p != "(", fun pat desc => pat == desc⟩

/-- A category rule whose combined pattern `(` fails to compile. -/
def catBad : CatRule := { name := "A", mpatterns := ["("], necessity := none }

/-- The behavior the spec describes for C7: a category/tag rule whose combined
pattern fails to compile is silently skipped and the remaining rules still
run.  Stated as a second definition to compare with `apply_rules`. -/
def apply_rules_skip_spec (re : Re) (doc : RulesDoc) (rows : List Row) :
    List Row :=
  if rows = [] then rows
  else
    let rows1 := rows.map fun r => { r with necessity := some (r.necessity.getD "Want") }
    let rows2 := doc.categories.foldl (fun rows rule =>
      if joinBar rule.mpatterns = "" then rows
      else if re.compiles (joinBar rule.mpatterns) then
        rows.map fun r =>
          if re.search (joinBar rule.mpatterns) r.description then catRowUpd rule r
          else r
      else rows) rows1
    doc.tagRules.foldl (fun rows rule =>
      if joinBar rule.mpatterns = "" then rows
      else if re.compiles (joinBar rule.mpatterns) then
        rows.map fun r =>
          if re.search (joinBar rule.mpatterns) r.description then
            { r with tags := if rule.tag ∈ r.tags then r.tags
                             else r.tags ++ [rule.tag] }
          else r
      else rows) rows2

/-- Counterexample to C7 as stated: with a first rule whose pattern does not
compile, `apply_rules` raises (returns an error) instead of skipping the rule
and applying the remaining rule `B`, which is what the spec-described
skipping behavior would produce. -/
theorem apply_rules_compile_cex :
    apply_rules reParen ⟨[catBad, catB], []⟩ [rowX] = .error ()
    ∧ apply_rules_skip_spec reParen ⟨[catBad, catB], []⟩ [rowX]
        = [{ rowX with category := some "B", necessity := some "Want" }] := by
  constructor <;> rfl

theorem applyCatRulePass_err {re : Re} {rule : CatRule} {rows : List Row}
    (h1 : joinBar rule.mpatterns ≠ "")
    (h2 : re.compiles (joinBar rule.mpatterns) = false) :
    applyCatRulePass re rule rows = .error () := by
  simp [applyCatRulePass, h1, h2]

theorem catFold_err {re : Re} : ∀ (rules : List CatRule) (rows : List Row),
    (∃ rule ∈ rules, joinBar rule.mpatterns ≠ ""
      ∧ re.compiles (joinBar rule.mpatterns) = false) →
    foldPasses (applyCatRulePass re) rules rows = .error () := by
  intro rules
  induction rules with
  | nil =>
    intro rows h
    obtain ⟨rule, hmem, _⟩ := h
    exact absurd hmem (List.not_mem_nil _)
  | cons r rest ih =>
    intro rows h
    obtain ⟨rule, hmem, hbad⟩ := h
    simp only [foldPasses]
    cases hp : applyCatRulePass re r rows with
    | error e => cases e; rfl
    | ok mid =>
      rcases List.mem_cons.mp hmem with rfl | hmem2
      · rw [applyCatRulePass_err hbad.1 hbad.2] at hp
        exact absurd hp (by simp)
      · exact ih mid ⟨rule, hmem2, hbad⟩

theorem applyTagRulePass_err {re : Re} {rule : TagRule} {rows : List Row}
    (h1 : joinBar rule.mpatterns ≠ "")
    (h2 : re.compiles (joinBar rule.mpatterns) = false) :
    applyTagRulePass re rule rows = .error () := by
  simp [applyTagRulePass, h1, h2]

theorem tagFold_err {re : Re} : ∀ (rules : List TagRule) (rows : List Row),
    (∃ rule ∈ rules, joinBar rule.mpatterns ≠ ""
      ∧ re.compiles (joinBar rule.mpatterns) = false) →
    foldPasses (applyTagRulePass re) rules rows = .error () := by
  intro rules
  induction rules with
  | nil =>
    intro rows h
    obtain ⟨rule, hmem, _⟩ := h
    exact absurd hmem (List.not_mem_nil _)
  | cons r rest ih =>
    intro rows h
    obtain ⟨rule, hmem, hbad⟩ := h
    simp only [foldPasses]
    cases hp : applyTagRulePass re r rows with
    | error e => cases e; rfl
    | ok mid =>
      rcases List.mem_cons.mp hmem with rfl | hmem2
      · rw [applyTagRulePass_err hbad.1 hbad.2] at hp
        exact absurd hp (by simp)
      · exact ih mid ⟨rule, hmem2, hbad⟩

/-- C7 amended: a category or tag rule whose pattern list joins to the empty
string is indeed skipped, but a category or tag rule whose nonempty combined
pattern fails to compile makes `apply_rules` raise, aborting rule application
for the whole batch (the surrounding `ingest_zip` then reports failure),
rather than being silently skipped. -/
theorem apply_rules_compile_error :
    (∀ (re : Re) (rule : CatRule) (rows : List Row),
      joinBar rule.mpatterns = "" → applyCatRulePass re rule rows = .ok rows)
    ∧ (∀ (re : Re) (rule : TagRule) (rows : List Row),
      joinBar rule.mpatterns = "" → applyTagRulePass re rule rows = .ok rows)
    ∧ (∀ (re : Re) (doc : RulesDoc) (rows : List Row) (rule : CatRule),
        rows ≠ [] → rule ∈ doc.categories →
        joinBar rule.mpatterns ≠ "" →
        re.compiles (joinBar rule.mpatterns) = false →
        apply_rules re doc rows = .error ())
    ∧ (∀ (re : Re) (doc : RulesDoc) (rows : List Row) (rule : TagRule),
        rows ≠ [] → rule ∈ doc.tagRules →
        joinBar rule.mpatterns ≠ "" →
        re.compiles (joinBar rule.mpatterns) = false →
        apply_rules re doc rows = .error ()) := by
  refine ⟨?_, ?_, ?_, ?_⟩
  · intro re rule rows h
    simp [applyCatRulePass, h]
  · intro re rule rows h
    simp [applyTagRulePass, h]
  · intro re doc rows rule hrows hmem h1 h2
    unfold apply_rules
    rw [if_neg hrows, catFold_err doc.categories _ ⟨rule, hmem, h1, h2⟩]
  · intro re doc rows rule hrows hmem h1 h2
    unfold apply_rules
    rw [if_neg hrows]
    cases hc : foldPasses (applyCatRulePass re) doc.categories
        (rows.map fun r => { r with necessity := some (r.necessity.getD "Want") }) with
    | error e => cases e; rfl
    | ok mid => exact tagFold_err doc.tagRules mid ⟨rule, hmem, h1, h2⟩

/-- A tag rule whose combined pattern `(` fails to compile. -/
def tagBad : TagRule := { tag := "t", mpatterns := ["("] }

/-- Concrete check of the amended C7: empty-pattern category and tag rules
are skipped, and a batch whose category rules (or whose tag rules) contain
the non-compiling rule `(` errors out. -/
theorem apply_rules_compile_error_witness :
    applyCatRulePass reParen { name := "E", mpatterns := [], necessity := none }
        [rowX] = .ok [rowX]
    ∧ applyTagRulePass reParen { tag := "e", mpatterns := [] }
        [rowX] = .ok [rowX]
    ∧ apply_rules reParen ⟨[catBad, catB], []⟩ [rowX] = .error ()
    ∧ apply_rules reParen ⟨[], [tagBad]⟩ [rowX] = .error () :=
  ⟨apply_rules_compile_error.1 reParen _ [rowX] rfl,
   apply_rules_compile_error.2.1 reParen _ [rowX] rfl,
   apply_rules_compile_error.2.2.1 reParen ⟨[catBad, catB], []⟩ [rowX] catBad
     (by decide) (List.mem_cons_self _ _) (by decide) rfl,
   apply_rules_compile_error.2.2.2 reParen ⟨[], [tagBad]⟩ [rowX] tagBad
     (by decide) (List.mem_cons_self _ _) (by decide) rfl⟩

/-- Gregorian leap year. -/
def isLeap (y : Nat) : Bool := (y % 4 = 0 && !(y % 100 = 0)) || y % 400 = 0

/-- Days in a month. -/
def daysInMonth (y m : Nat) : Nat :=
  if m = 2 then (if isLeap y then 29 else 28)
  else if m = 4 ∨ m = 6 ∨ m = 9 ∨ m = 11 then 30
  else 31

theorem daysInMonth_bounds (y m : Nat) :
    28 ≤ daysInMonth y m ∧ daysInMonth y m ≤ 31 := by
  unfold daysInMonth
  split_ifs <;> omega

/-- `relativedelta(months=1)`: one month forward, day clamped to the target
month's length. -/
def addMonths1 (d : DateYMD) : DateYMD :=
  if hm : d.m = 12 then
    ⟨d.y + 1, 1, min d.d (daysInMonth (d.y + 1) 1), by omega,
     by have h1 := d.hd; have h2 := daysInMonth_bounds (d.y + 1) 1; omega⟩
  else
    ⟨d.y, d.m + 1, min d.d (daysInMonth d.y (d.m + 1)),
     by have := d.hm; omega,
     by have h1 := d.hd; have h2 := daysInMonth_bounds d.y (d.m + 1); omega⟩

/-- `relativedelta(years=1)`: one year forward, day clamped (Feb 29 cases). -/
def addYears1 (d : DateYMD) : DateYMD :=
  ⟨d.y + 1, d.m, min d.d (daysInMonth (d.y + 1) d.m), d.hm,
   by have h1 := d.hd; have h2 := daysInMonth_bounds (d.y + 1) d.m; omega⟩

/-- `timedelta(weeks=1)`: seven days forward with month/year rollover. -/
def addWeek (d : DateYMD) : DateYMD :=
  if h : d.d + 7 ≤ daysInMonth d.y d.m then
    ⟨d.y, d.m, d.d + 7, d.hm,
     by have h2 := daysInMonth_bounds d.y d.m; have h3 := d.hd; omega⟩
  else if hm : d.m = 12 then
    ⟨d.y + 1, 1, d.d + 7 - daysInMonth d.y d.m, by omega,
     by have h2 := daysInMonth_bounds d.y d.m; have h3 := d.hd; omega⟩
  else
    ⟨d.y, d.m + 1, d.d + 7 - daysInMonth d.y d.m,
     by have := d.hm; omega,
     by have h2 := daysInMonth_bounds d.y d.m; have h3 := d.hd; omega⟩

/-- The period advance used by both `process_recurring` and
`get_projected_recurring`; an unrecognized frequency leaves the date
unchanged (in `process_recurring` no branch fires). -/
def advanceFreq (freq : String) (d : DateYMD) : DateYMD :=
  if freq = "Monthly" then addMonths1 d
  else if freq = "Yearly" then addYears1 d
  else if freq = "Weekly" then addWeek d
  else d

/-- A strictly monotone embedding of dates into `Nat` (valid because
`m ≤ 12` and `d ≤ 31`). -/
def ordDate (d : DateYMD) : Nat := d.y * 404 + d.m * 31 + d.d

/-- Python `date` comparison `a <= b`. -/
def dateLe (a b : DateYMD) : Bool :=
  decide (a.y < b.y ∨ (a.y = b.y ∧ (a.m < b.m ∨ (a.m = b.m ∧ a.d ≤ b.d))))

/-- Python `date` comparison `a < b`. -/
def dateLt (a b : DateYMD) : Bool :=
  decide (a.y < b.y ∨ (a.y = b.y ∧ (a.m < b.m ∨ (a.m = b.m ∧ a.d < b.d))))

theorem ordDate_le_of_dateLe {a b : DateYMD} (h : dateLe a b = true) :
    ordDate a ≤ ordDate b := by
  rw [dateLe, decide_eq_true_eq] at h
  have ha1 := a.hm; have ha2 := a.hd; have hb1 := b.hm; have hb2 := b.hd
  unfold ordDate
  rcases h with h | ⟨h1, h | ⟨h2, h3⟩⟩ <;> nlinarith

theorem ordDate_lt_addMonths1 (d : DateYMD) : ordDate d < ordDate (addMonths1 d) := by
  have h1 := d.hm; have h2 := d.hd
  have h3 := daysInMonth_bounds (d.y + 1) 1
  have h4 := daysInMonth_bounds d.y (d.m + 1)
  unfold addMonths1 ordDate
  split_ifs with hm
  · simp only
    omega
  · simp only
    omega

theorem ordDate_lt_addYears1 (d : DateYMD) : ordDate d < ordDate (addYears1 d) := by
  have h1 := d.hm; have h2 := d.hd
  have h3 := daysInMonth_bounds (d.y + 1) d.m
  unfold addYears1 ordDate
  simp only
  omega

theorem ordDate_lt_addWeek (d : DateYMD) : ordDate d < ordDate (addWeek d) := by
  have h1 := d.hm; have h2 := d.hd
  have h3 := daysInMonth_bounds d.y d.m
  unfold addWeek ordDate
  split_ifs with h hm
  · simp only
    omega
  · simp only
    omega
  · simp only
    omega

/-- A row of the `recurring_expenses` table. -/
structure Template where
  id : Nat
  name : String
  amount : ℚ
  category : Option String
  account : String
  frequency : String
  next_date : DateYMD
  description : Option String
  tags : List String
  remaining_installments : Option Int
  end_date : Option DateYMD
deriving DecidableEq

/-- The database state touched by the recurring engine. -/
structure RecState where
  transactions : List Row
  recurring : List Template
deriving DecidableEq

/-- The Transaction inserted when a due template materializes: dated at
`next_date`, `EUR`, type `Expense`, provenance `Recurring`, necessity `Need`,
description falling back to the name, and the template's tags with the
`'Recurring'` marker appended when absent. -/
def recurringTxn (t : Template) : Row :=
  { date := some t.next_date
    account := t.account
    rtype := "Expense"
    category := t.category
    amount := t.amount
    currency := "EUR"
    description := t.description.getD t.name
    tags := if "Recurring" ∈ t.tags then t.tags else t.tags ++ ["Recurring"]
    source_file := "Recurring"
    original_description := t.name
    necessity := some "Need" }

/-- `DELETE FROM recurring_expenses WHERE id = ?`. -/
def delete_recurring (rid : Nat) (s : RecState) : RecState :=
  { s with recurring := s.recurring.filter (fun t => t.id ≠ rid) }

/-- `UPDATE recurring_expenses SET next_date = ? WHERE id = ?`. -/
def update_next_date (rid : Nat) (nd : DateYMD) (s : RecState) : RecState :=
  { s with recurring := s.recurring.map fun t => if t.id = rid then { t with next_date := nd } else t }

/-- `UPDATE recurring_expenses SET remaining_installments = ? WHERE id = ?`. -/
def update_installments (rid : Nat) (n : Int) (s : RecState) : RecState :=
  { s with recurring := s.recurring.map fun t => if t.id = rid then { t with remaining_installments := some n } else t }

/-- The body of the `process_recurring` loop for one due snapshot row:
insert the transaction, advance `next_date` (no-op for an unrecognized
frequency), decrement/delete on installments, delete when the advanced date
passes `end_date`. -/
def processTemplate (row : Template) (s : RecState) : RecState :=
  let s1 : RecState := { s with transactions := s.transactions ++ [recurringTxn row] }
  let next_date := advanceFreq row.frequency row.next_date
  let s2 := update_next_date row.id next_date s1
  let s3 := match row.remaining_installments with
    | some n =>
      if n - 1 ≤ 0 then delete_recurring row.id s2
      else update_installments row.id (n - 1) s2
    | none => s2
  match row.end_date with
  | some e => if dateLt e next_date then delete_recurring row.id s3 else s3
  | none => s3

/-- `process_recurring` from `src/data_manager.py`: snapshot the due
templates (`next_date <= today`), process each once, return the new state and
the count of processed templates. -/
def process_recurring (today : DateYMD) (s : RecState) : RecState × Nat :=
  let due := s.recurring.filter (fun t => dateLe t.next_date today)
  (due.foldl (fun acc t => processTemplate t acc) s, due.length)

theorem processTemplate_single (txs : List Row) (t : Template) :
    processTemplate t ⟨txs, [t]⟩
      = ⟨txs ++ [recurringTxn t],
          if (match t.remaining_installments with
              | some n => decide (n - 1 ≤ 0)
              | none => false)
            || (match t.end_date with
              | some e => dateLt e (advanceFreq t.frequency t.next_date)
              | none => false) then []
          else [{ t with next_date := advanceFreq t.frequency t.next_date,
                          remaining_installments :=
                            t.remaining_installments.map (fun n => n - 1) }]⟩ := by
  unfold processTemplate update_next_date update_installments delete_recurring
  cases hr : t.remaining_installments with
  | none =>
    cases he : t.end_date with
    | none => simp [hr, he]
    | some e =>
      by_cases hlt : dateLt e (advanceFreq t.frequency t.next_date) = true
      · simp [hr, he, hlt]
      · rw [Bool.not_eq_true] at hlt
        simp [hr, he, hlt]
  | some n =>
    by_cases hn : n - 1 ≤ 0
    · cases he : t.end_date with
      | none => simp [hr, he, hn]
      | some e =>
        by_cases hlt : dateLt e (advanceFreq t.frequency t.next_date) = true
        · simp [hr, he, hn, hlt]
        · rw [Bool.not_eq_true] at hlt
          simp [hr, he, hn, hlt]
    · cases he : t.end_date with
      | none => simp [hr, he, hn]
      | some e =>
        by_cases hlt : dateLt e (advanceFreq t.frequency t.next_date) = true
        · simp [hr, he, hn, hlt]
        · rw [Bool.not_eq_true] at hlt
          simp [hr, he, hn, hlt]

/-- C4: for a due template, `remaining_installments = 1` means one
materialized transaction and deletion; an `end_date` before the newly
advanced `next_date` also means one materialized transaction and deletion;
in every other case the template survives with `next_date` advanced one
period (and the installment counter decremented when present). -/
theorem process_recurring_lifecycle (today : DateYMD) (txs : List Row)
    (t : Template) (hdue : dateLe t.next_date today = true) :
    ((t.remaining_installments = some 1 →
        (process_recurring today ⟨txs, [t]⟩).1
          = ⟨txs ++ [recurringTxn t], []⟩)
     ∧ (∀ e, t.end_date = some e →
          dateLt e (advanceFreq t.frequency t.next_date) = true →
          (process_recurring today ⟨txs, [t]⟩).1
            = ⟨txs ++ [recurringTxn t], []⟩)
     ∧ ((t.frequency = "Weekly" ∨ t.frequency = "Monthly" ∨ t.frequency = "Yearly") →
        (t.remaining_installments = none
          ∨ ∃ n, t.remaining_installments = some n ∧ 2 ≤ n) →
        (t.end_date = none
          ∨ ∃ e, t.end_date = some e
              ∧ dateLt e (advanceFreq t.frequency t.next_date) = false) →
        (process_recurring today ⟨txs, [t]⟩).1
          = ⟨txs ++ [recurringTxn t],
             [{ t with next_date := advanceFreq t.frequency t.next_date,
                       remaining_installments :=
                         t.remaining_installments.map (fun n => n - 1) }]⟩)) := by
  have hdue2 : List.filter (fun t2 => dateLe t2.next_date today) [t] = [t] := by
    simp [hdue]
  have hstep : (process_recurring today ⟨txs, [t]⟩).1 = processTemplate t ⟨txs, [t]⟩ := by
    simp [process_recurring, hdue2]
  rw [hstep, processTemplate_single]
  refine ⟨?_, ?_, ?_⟩
  · intro h1
    simp [h1]
  · intro e he hlt
    simp [he, hlt]
  · intro hfreq hrem hend
    rcases hrem with hrem | ⟨n, hrem, hn⟩ <;>
      rcases hend with hend | ⟨e, hend, he⟩
    · simp [hrem, hend]
    · simp [hrem, hend, he]
    · simp [hrem, hend, show ¬(n - 1 ≤ 0) by omega]
    · simp [hrem, hend, he, show ¬(n - 1 ≤ 0) by omega]

/-- 2024-01-15. -/
def jan15 : DateYMD := ⟨2024, 1, 15, by omega, by omega⟩

/-- 2024-02-01. -/
def feb1 : DateYMD := ⟨2024, 2, 1, by omega, by omega⟩

/-- A last-installment template due on 2024-01-15. -/
def tLast : Template :=
  { id := 1, name := "N", amount := -10, category := none, account := "W",
    frequency := "Monthly", next_date := jan15, description := none,
    tags := [], remaining_installments := some 1, end_date := none }

/-- Concrete check of C4: the last-installment template materializes exactly
one transaction and disappears from the store. -/
theorem process_recurring_lifecycle_witness :
    (process_recurring jan15 ⟨[], [tLast]⟩).1
      = ⟨[recurringTxn tLast], []⟩ :=
  (process_recurring_lifecycle jan15 [] tLast (by decide)).1 rfl

/-- `ORDER BY next_date` of `get_recurring`. -/
def templateLe (a b : Template) : Prop := dateLe a.next_date b.next_date = true

instance : DecidableRel templateLe := fun a b => by
  unfold templateLe; infer_instance

/-- `get_recurring`: a pure snapshot of the template table sorted by
`next_date`. -/
def get_recurring (s : RecState) : RecState × List Template :=
  (s, List.insertionSort templateLe s.recurring)

/-- One projected occurrence (a row of the frame built by
`get_projected_recurring`). -/
structure ProjRow where
  date : DateYMD
  amount : ℚ
  name : String
  category : Option String
  account : String
  frequency : String
deriving DecidableEq

/-- The `while current_next <= end_date` loop of `get_projected_recurring`
for one template, with fuel making the recursion structural (`projFuel`
supplies a provably sufficient amount, see `projLoop_congr_fuel`): check the
template's own `end_date`, check the local installment counter, emit the
occurrence, decrement, then advance — or stop on an unrecognized
frequency (the `else: break`). -/
def projLoop (t : Template) (endD : DateYMD) :
    Nat → Option Int → DateYMD → List ProjRow
  | 0, _, _ => []
  | fuel + 1, remInst, cur =>
    if dateLe cur endD then
      if (match t.end_date with | some e => dateLt e cur | none => false) then []
      else if (match remInst with | some n => decide (n ≤ 0) | none => false) then []
      else
        { date := cur, amount := t.amount, name := t.name,
          category := t.category, account := t.account,
          frequency := t.frequency } ::
        (if t.frequency = "Monthly" then
            projLoop t endD fuel (remInst.map (fun n => n - 1)) (addMonths1 cur)
         else if t.frequency = "Yearly" then
            projLoop t endD fuel (remInst.map (fun n => n - 1)) (addYears1 cur)
         else if t.frequency = "Weekly" then
            projLoop t endD fuel (remInst.map (fun n => n - 1)) (addWeek cur)
         else [])
    else []

/-- Fuel sufficient for the projection loop: one more than the `ordDate`
distance to the bound. -/
def projFuel (cur endD : DateYMD) : Nat := ordDate endD + 1 - ordDate cur

/-- All projected occurrences of one template. -/
def projTemplate (endD : DateYMD) (t : Template) : List ProjRow :=
  projLoop t endD (projFuel t.next_date endD) t.remaining_installments t.next_date

/-- `get_projected_recurring` from `src/data_manager.py`: read the sorted
template snapshot and emit each template's projections in order; the state
comes back untouched because the function only issues reads. -/
def get_projected_recurring (endD : DateYMD) (s : RecState) :
    RecState × List ProjRow :=
  ((get_recurring s).1, catMaps (projTemplate endD) (get_recurring s).2)

theorem dateLe_false_of_ord {a b : DateYMD} (h : ordDate b < ordDate a) :
    dateLe a b = false := by
  cases hc : dateLe a b with
  | false => rfl
  | true => exact absurd (ordDate_le_of_dateLe hc) (by omega)

/-- The loop result does not depend on the fuel, as long as the fuel covers
the `ordDate` distance: the translation by fuel is faithful to the source's
`while` loop. -/
theorem projLoop_congr_fuel (t : Template) (endD : DateYMD) :
    ∀ (f1 f2 : Nat) (remInst : Option Int) (cur : DateYMD),
      projFuel cur endD ≤ f1 → projFuel cur endD ≤ f2 →
      projLoop t endD f1 remInst cur = projLoop t endD f2 remInst cur := by
  intro f1
  induction f1 with
  | zero =>
    intro f2 rem cur h1 h2
    have hle : dateLe cur endD = false := by
      apply dateLe_false_of_ord
      unfold projFuel at h1
      omega
    cases f2 with
    | zero => rfl
    | succ g2 => simp [projLoop, hle]
  | succ g1 ih =>
    intro f2 rem cur h1 h2
    cases f2 with
    | zero =>
      have hle : dateLe cur endD = false := by
        apply dateLe_false_of_ord
        unfold projFuel at h2
        omega
      simp [projLoop, hle]
    | succ g2 =>
      by_cases hle : dateLe cur endD = true
      · have hcur : ordDate cur ≤ ordDate endD := ordDate_le_of_dateLe hle
        simp only [projLoop, if_pos hle]
        by_cases hbE : (match t.end_date with
            | some e => dateLt e cur | none => false) = true
        · rw [if_pos hbE, if_pos hbE]
        · rw [if_neg hbE, if_neg hbE]
          by_cases hbR : (match rem with
              | some n => decide (n ≤ 0) | none => false) = true
          · rw [if_pos hbR, if_pos hbR]
          · rw [if_neg hbR, if_neg hbR]
            congr 1
            have m1 := ordDate_lt_addMonths1 cur
            have m2 := ordDate_lt_addYears1 cur
            have m3 := ordDate_lt_addWeek cur
            split_ifs
            · exact ih g2 _ _ (by unfold projFuel at h1 ⊢; omega)
                (by unfold projFuel at h2 ⊢; omega)
            · exact ih g2 _ _ (by unfold projFuel at h1 ⊢; omega)
                (by unfold projFuel at h2 ⊢; omega)
            · exact ih g2 _ _ (by unfold projFuel at h1 ⊢; omega)
                (by unfold projFuel at h2 ⊢; omega)
            · rfl
      · rw [Bool.not_eq_true] at hle
        simp [projLoop, hle]

/-- The canonical fuel is enough: any larger fuel gives the same output. -/
theorem projTemplate_fuel_stable (endD : DateYMD) (t : Template) (f : Nat)
    (hf : projFuel t.next_date endD ≤ f) :
    projLoop t endD f t.remaining_installments t.next_date
      = projTemplate endD t :=
  projLoop_congr_fuel t endD f (projFuel t.next_date endD) _ _ hf le_rfl

/-- C5: `get_projected_recurring` leaves the transactions table and the
recurring table untouched, and re-running it on the state it returns gives
the identical result (pure and restartable). -/
theorem get_projected_recurring_pure (s : RecState) (endD : DateYMD) :
    ((get_projected_recurring endD s).1.transactions = s.transactions
      ∧ (get_projected_recurring endD s).1.recurring = s.recurring)
    ∧ get_projected_recurring endD ((get_projected_recurring endD s).1)
        = get_projected_recurring endD s :=
  ⟨⟨rfl, rfl⟩, rfl⟩

/-- A template with the unrecognized frequency `Daily`. -/
def tDaily : Template :=
  { id := 7, name := "D", amount := -5, category := none, account := "W",
    frequency := "Daily", next_date := jan15, description := none,
    tags := [], remaining_installments := none, end_date := none }

/-- Counterexample to C6 as stated: a template with unrecognized frequency
`Daily` and `next_date` within the bound yields **one** projected occurrence
(the loop appends before it breaks), not zero. -/
theorem projection_unknown_freq_cex :
    (get_projected_recurring feb1 ⟨[], [tDaily]⟩).2
      = [{ date := jan15, amount := -5, name := "D", category := none,
           account := "W", frequency := "Daily" }]
    ∧ (get_projected_recurring feb1 ⟨[], [tDaily]⟩).2 ≠ [] := by
  constructor
  · decide
  · decide

/-- C6 amended: for an unrecognized frequency the projection still terminates
and emits **at most one** occurrence per template — exactly one when the next
date is within the bound and neither limit cuts it off, zero otherwise. -/
theorem proj_unknown_freq (t : Template) (endD : DateYMD)
    (hf : t.frequency ≠ "Monthly" ∧ t.frequency ≠ "Yearly"
      ∧ t.frequency ≠ "Weekly") :
    (projTemplate endD t).length ≤ 1
    ∧ (∀ fuel remInst cur, (projLoop t endD fuel remInst cur).length ≤ 1) := by
  have hloop : ∀ fuel remInst cur,
      (projLoop t endD fuel remInst cur).length ≤ 1 := by
    intro fuel remInst cur
    cases fuel with
    | zero => simp [projLoop]
    | succ g =>
      simp only [projLoop, if_neg hf.1, if_neg hf.2.1, if_neg hf.2.2]
      split_ifs <;> simp
  exact ⟨hloop _ _ _, hloop⟩

/-- Concrete check of the amended C6: the `Daily` template projects exactly
one occurrence. -/
theorem proj_unknown_freq_witness :
    (projTemplate feb1 tDaily).length ≤ 1
    ∧ (projTemplate feb1 tDaily).length = 1 :=
  ⟨(proj_unknown_freq tDaily feb1 (by decide)).1, by decide⟩

/-- Python `str.strip()`. -/
def trimWS (s : Chars) : Chars :=
  ((s.dropWhile Char.isWhitespace).reverse.dropWhile Char.isWhitespace).reverse

/-- The uniform tag cleaning of the split engine:
`t.lower().replace('#', '').strip()`. -/
def cleanTag (s : String) : String :=
  String.mk (trimWS (stripHash (s.data.map lowerChar)))

/-- Cleaning of one part of a stringified-list representation:
`p.replace("'", "").replace('"', "").lower().replace('#', '').strip()`. -/
def cleanQuoted (s : Chars) : Chars :=
  trimWS (stripHash ((s.filter (fun c => c ≠ '\'' ∧ c ≠ '"')).map lowerChar))

/-- Worker for `splitComma`. -/
def splitCommaAux : Chars → Chars → List Chars
  | [], acc => [acc.reverse]
  | c :: cs, acc =>
    if c = ',' then acc.reverse :: splitCommaAux cs []
    else splitCommaAux cs (c :: acc)

/-- Python `str.split(',')` (keeps empty segments). -/
def splitComma (s : Chars) : List Chars := splitCommaAux s []

/-- The `tags` cell of a stored transaction as the split engine may receive
it: a plain/stringified string, a native sequence, or a missing value. -/
inductive RawTags : Type
  | str (s : String)
  | lst (l : List String)
  | na
deriving DecidableEq

/-- `s.startswith('[') and s.endswith(']')`. -/
def isBracketed (s : Chars) : Bool :=
  match s with
  | '[' :: _ => decide (s.getLast? = some ']')
  | _ => false

/-- The robust per-row tag normalization of `render_split` (the
`try` block over `raw_tags`): bracketed strings are parsed as stringified
lists, other strings as comma-separated values, native sequences are cleaned
elementwise, missing values give no tags. -/
def parseRowTags (raw : RawTags) : List String :=
  match raw with
  | .str s =>
    let clean_str := trimWS s.data
    if isBracketed clean_str then
      let content := (clean_str.drop 1).dropLast
      if content = [] then []
      else (splitComma content).map (fun p => String.mk (cleanQuoted p))
    else
      if clean_str = [] then []
      else (splitComma clean_str).map (fun p => cleanTag (String.mk p))
  | .lst l => l.map cleanTag
  | .na => []

/-- A split-sharing rule `{'type': ..., 'match': ..., 'my_share': ...}`. -/
structure SplitRule where
  rtype : String
  rmatch : String
  my_share : ℚ
deriving DecidableEq

/-- The split configuration relevant to row classification. -/
structure SplitConf where
  loan_tags : List String
  rules : List SplitRule
  default_share_pct : ℚ
deriving DecidableEq

/-- The first Tag-type rule whose cleaned match value is among the row's
tags (the `for r in rules_list ... break` loop). -/
def findTagRule (rules : List SplitRule) (tags : List String) : Option SplitRule :=
  rules.find? (fun r => decide (r.rtype = "tag") && decide (cleanTag r.rmatch ∈ tags))

/-- The first Category-type rule whose match value equals the row's category
exactly (scanned only when no tag rule matched). -/
def findCatRule (rules : List SplitRule) (category : Option String) :
    Option SplitRule :=
  rules.find? (fun r => decide (r.rtype = "category") && decide (some r.rmatch = category))

/-- `active_rule = tag_rule if tag_rule else cat_rule`. -/
def activeSplitRule (conf : SplitConf) (tags : List String)
    (category : Option String) : Option SplitRule :=
  match findTagRule conf.rules tags with
  | some r => some r
  | none => findCatRule conf.rules category

/-- The fixed generic "shared" marker tags. -/
def defaultsTags : List String := ["split", "condiviso", "shared", "comune"]

/-- What one row contributes to the split report: the amount added to the
counterparty total, the shared-expense entry (owed amount and the rule match
value, or `Default`) when one is recorded, and whether the row lands in the
loan group.  The display percentage formatting of `share_desc` is elided. -/
structure SplitOutcome where
  owedDelta : ℚ
  sharedEntry : Option (ℚ × String)
  isLoan : Bool
deriving DecidableEq

/-- The per-row classification of `render_split` (`src/ui/split.py`,
calculation loop): loan check first via loan tags, then the first matching
tag rule, else the first matching category rule, else the default-split
markers; matched rows owe `abs(amount) * (1 - my_share/100)`, and a
rule-matched row is recorded only when its partner share is positive, while
a default-split row is recorded unconditionally. -/
def processSplitRow (conf : SplitConf) (amountRaw : ℚ) (raw : RawTags)
    (category : Option String) : SplitOutcome :=
  let amount := |amountRaw|
  let tags := parseRowTags raw
  let clean_loan_tags := conf.loan_tags.map cleanTag
  if clean_loan_tags.any (fun tl => decide (tl ∈ tags)) then
    { owedDelta := amount, sharedEntry := none, isLoan := true }
  else
    match activeSplitRule conf tags category with
    | some r =>
      if 1 - r.my_share / 100 > 0 then
        { owedDelta := amount * (1 - r.my_share / 100),
          sharedEntry := some (amount * (1 - r.my_share / 100), r.rmatch),
          isLoan := false }
      else
        { owedDelta := 0, sharedEntry := none, isLoan := false }
    | none =>
      if defaultsTags.any (fun k => decide (k ∈ tags)) then
        { owedDelta := amount * (1 - conf.default_share_pct / 100),
          sharedEntry := some (amount * (1 - conf.default_share_pct / 100),
            "Default"),
          isLoan := false }
      else
        { owedDelta := 0, sharedEntry := none, isLoan := false }

/-- One expense row as the split report reads it. -/
structure SplitIn where
  amount : ℚ
  tags : RawTags
  category : Option String
deriving DecidableEq

/-- The counterparty total accumulated over the period's expense rows. -/
def splitTotal (conf : SplitConf) (rows : List SplitIn) : ℚ :=
  rows.foldl (fun acc r =>
    acc + (processSplitRow conf r.amount r.tags r.category).owedDelta) 0

/-- The recorded shared-expense entries. -/
def splitShared (conf : SplitConf) (rows : List SplitIn) : List (ℚ × String) :=
  rows.filterMap (fun r => (processSplitRow conf r.amount r.tags r.category).sharedEntry)

/-- The rows classified as loans. -/
def splitLoans (conf : SplitConf) (rows : List SplitIn) : List SplitIn :=
  rows.filter (fun r => (processSplitRow conf r.amount r.tags r.category).isLoan)

/-- C3: split classification is first-match-wins in the order
loan > tag rule > category rule: a row whose normalized tags intersect the
cleaned loan tags contributes 100% of `abs(amount)` and lands in the loan
group regardless of any rule, and a non-loan row matched by a tag rule uses
that tag rule's `my_share` even when a category rule also matches. -/
theorem split_precedence (conf : SplitConf) (amount : ℚ) (raw : RawTags)
    (category : Option String) :
    (((conf.loan_tags.map cleanTag).any
        (fun tl => decide (tl ∈ parseRowTags raw)) = true →
      processSplitRow conf amount raw category
        = { owedDelta := |amount|, sharedEntry := none, isLoan := true })
    ∧ ((conf.loan_tags.map cleanTag).any
        (fun tl => decide (tl ∈ parseRowTags raw)) = false →
       ∀ tr, findTagRule conf.rules (parseRowTags raw) = some tr →
       (∃ cr ∈ conf.rules, cr.rtype = "category" ∧ some cr.rmatch = category) →
       processSplitRow conf amount raw category
         = (if 1 - tr.my_share / 100 > 0 then
              { owedDelta := |amount| * (1 - tr.my_share / 100),
                sharedEntry := some (|amount| * (1 - tr.my_share / 100),
                  tr.rmatch),
                isLoan := false }
            else
              { owedDelta := 0, sharedEntry := none, isLoan := false }))) := by
  constructor
  · intro h
    simp [processSplitRow, h]
  · intro h tr htr _
    simp [processSplitRow, h, activeSplitRule, htr]

/-- Concrete check of C3: a loan-tagged row owes 100% despite a matching tag
rule, and a row matching both a tag rule and a category rule uses the tag
rule's 40% share. -/
theorem split_precedence_witness :
    processSplitRow
      { loan_tags := ["Loan"],
        rules := [{ rtype := "tag", rmatch := "gas", my_share := 50 }],
        default_share_pct := 50 }
      (-80) (.lst ["loan", "gas"]) none
      = { owedDelta := 80, sharedEntry := none, isLoan := true }
    ∧ processSplitRow
      { loan_tags := [],
        rules := [{ rtype := "tag", rmatch := "gas", my_share := 40 },
                  { rtype := "category", rmatch := "Fuel", my_share := 90 }],
        default_share_pct := 50 }
      (-100) (.lst ["gas"]) (some "Fuel")
      = { owedDelta := 60, sharedEntry := some (60, "gas"), isLoan := false } := by
  constructor
  · have h := (split_precedence
      { loan_tags := ["Loan"],
        rules := [{ rtype := "tag", rmatch := "gas", my_share := 50 }],
        default_share_pct := 50 }
      (-80) (.lst ["loan", "gas"]) none).1 (by decide)
    rw [h]
    norm_num
  · have h := (split_precedence
      { loan_tags := [],
        rules := [{ rtype := "tag", rmatch := "gas", my_share := 40 },
                  { rtype := "category", rmatch := "Fuel", my_share := 90 }],
        default_share_pct := 50 }
      (-100) (.lst ["gas"]) (some "Fuel")).2 (by decide)
      { rtype := "tag", rmatch := "gas", my_share := 40 } (by decide)
      ⟨{ rtype := "category", rmatch := "Fuel", my_share := 90 },
        by decide, rfl, rfl⟩
    rw [h]
    norm_num

/-- A configuration with a single tag rule keeping 100% for the owner. -/
def confShare100 : SplitConf :=
  { loan_tags := [],
    rules := [{ rtype := "tag", rmatch := "g", my_share := 100 }],
    default_share_pct := 50 }

/-- Counterexample to C8 as stated: a row matched by a tag rule with
`my_share = 100` (partner share exactly 0) is **not** recorded in the
shared-expense group (the source appends only under `partner_share > 0`),
though it indeed contributes nothing to the total. -/
theorem split_zero_share_cex :
    (processSplitRow confShare100 (-100) (.lst ["g"]) none).sharedEntry = none
    ∧ (processSplitRow confShare100 (-100) (.lst ["g"]) none).owedDelta = 0
    ∧ (processSplitRow confShare100 (-100) (.lst ["g"]) none).isLoan = false := by
  have hloan : ((confShare100.loan_tags.map cleanTag).any
      (fun tl => decide (tl ∈ parseRowTags (.lst ["g"])))) = false := rfl
  have hact : activeSplitRule confShare100 (parseRowTags (.lst ["g"])) none
      = some { rtype := "tag", rmatch := "g", my_share := 100 } := rfl
  have hout : processSplitRow confShare100 (-100) (.lst ["g"]) none
      = { owedDelta := 0, sharedEntry := none, isLoan := false } := by
    simp only [processSplitRow, hloan, hact, Bool.false_eq_true, if_false]
    rw [if_neg (by norm_num)]
  rw [hout]
  exact ⟨rfl, rfl, rfl⟩

/-- C8 amended: a rule-matched row owes `abs(amount) * (1 - my_share/100)`
and is recorded exactly when that partner share is positive — a rule-matched
row with partner share 0 is dropped from the shared group (contributing 0) —
while a default-split row is recorded unconditionally, even with owed 0, and
contributes its owed amount. -/
theorem split_owed_amount (conf : SplitConf) (amount : ℚ) (raw : RawTags)
    (category : Option String)
    (hloan : (conf.loan_tags.map cleanTag).any
      (fun tl => decide (tl ∈ parseRowTags raw)) = false) :
    ((∀ r, activeSplitRule conf (parseRowTags raw) category = some r →
        0 < 1 - r.my_share / 100 →
        processSplitRow conf amount raw category
          = { owedDelta := |amount| * (1 - r.my_share / 100),
              sharedEntry := some (|amount| * (1 - r.my_share / 100), r.rmatch),
              isLoan := false })
     ∧ (∀ r, activeSplitRule conf (parseRowTags raw) category = some r →
        ¬(0 < 1 - r.my_share / 100) →
        processSplitRow conf amount raw category
          = { owedDelta := 0, sharedEntry := none, isLoan := false })
     ∧ (activeSplitRule conf (parseRowTags raw) category = none →
        defaultsTags.any (fun k => decide (k ∈ parseRowTags raw)) = true →
        processSplitRow conf amount raw category
          = { owedDelta := |amount| * (1 - conf.default_share_pct / 100),
              sharedEntry := some (|amount| * (1 - conf.default_share_pct / 100),
                "Default"),
              isLoan := false })) := by
  refine ⟨?_, ?_, ?_⟩
  · intro r hr hpos
    simp [processSplitRow, hloan, hr, hpos]
  · intro r hr hpos
    simp only [processSplitRow, hloan, hr]
    rw [if_neg (by simpa using hpos), if_neg hpos]
  · intro hr hdef
    simp [processSplitRow, hloan, hr, hdef]

/-- Concrete check of the amended C8: a 50% tag rule records the row with
owed 50; the 100% rule drops it; a default-split marker row with
`default_share_pct = 100` is still recorded with owed 0. -/
theorem split_owed_amount_witness :
    processSplitRow
      { loan_tags := [],
        rules := [{ rtype := "tag", rmatch := "gas", my_share := 50 }],
        default_share_pct := 50 }
      (-100) (.lst ["gas"]) none
      = { owedDelta := 50, sharedEntry := some (50, "gas"), isLoan := false }
    ∧ processSplitRow confShare100 (-100) (.lst ["g"]) none
      = { owedDelta := 0, sharedEntry := none, isLoan := false }
    ∧ processSplitRow
      { loan_tags := [], rules := [], default_share_pct := 100 }
      (-100) (.lst ["shared"]) none
      = { owedDelta := 0, sharedEntry := some (0, "Default"), isLoan := false } := by
  refine ⟨?_, ?_, ?_⟩
  · have h := (split_owed_amount
      { loan_tags := [],
        rules := [{ rtype := "tag", rmatch := "gas", my_share := 50 }],
        default_share_pct := 50 }
      (-100) (.lst ["gas"]) none (by decide)).1
      { rtype := "tag", rmatch := "gas", my_share := 50 } (by decide) (by norm_num)
    rw [h]
    norm_num
  · exact (split_owed_amount confShare100 (-100) (.lst ["g"]) none
      (by decide)).2.1 { rtype := "tag", rmatch := "g", my_share := 100 }
      (by decide) (by norm_num)
  · have h := (split_owed_amount
      { loan_tags := [], rules := [], default_share_pct := 100 }
      (-100) (.lst ["shared"]) none (by decide)).2.2 rfl (by decide)
    rw [h]
    norm_num

/-- Whether every character of a stored tag is fixed by lowercasing. -/
def allLowerTag (s : String) : Prop := s.data.map lowerChar = s.data

/-- Counterexample to C10 as stated: the transaction materialized from a
template with no tags carries exactly the marker tag `Recurring`, whose
leading `R` is not lowercase, so the all-lowercase tags invariant fails for
recurring-materialized ledger rows. -/
theorem recurring_marker_not_lower_cex :
    (recurringTxn tLast).tags = ["Recurring"]
    ∧ ¬(∀ s ∈ (recurringTxn tLast).tags, allLowerTag s) := by
  constructor
  · decide
  · intro h
    have h2 := h "Recurring" (by decide)
    unfold allLowerTag at h2
    exact absurd h2 (by decide)

/-- C10 amended: a recurring-materialized transaction carries the template's
stored tags unchanged, with the capitalized marker `Recurring` appended when
absent; such a row keeps the no-duplicates part of the invariant whenever the
template's stored tags are duplicate-free, but not the all-lowercase part. -/
theorem recurring_txn_tags (t : Template) :
    (recurringTxn t).tags
      = (if "Recurring" ∈ t.tags then t.tags else t.tags ++ ["Recurring"])
    ∧ (t.tags.Nodup → (recurringTxn t).tags.Nodup) := by
  refine ⟨rfl, ?_⟩
  intro h
  unfold recurringTxn
  dsimp only
  split_ifs with hmem
  · exact h
  · simp [List.nodup_append, h, hmem]

/-- Concrete check of the amended C10: a template tagged `rent` materializes
with tags `[rent, Recurring]`, duplicate-free. -/
theorem recurring_txn_tags_witness :
    (recurringTxn { tLast with tags := ["rent"] }).tags = ["rent", "Recurring"]
    ∧ (recurringTxn { tLast with tags := ["rent"] }).tags.Nodup :=
  ⟨(recurring_txn_tags { tLast with tags := ["rent"] }).1.trans (by decide),
   (recurring_txn_tags { tLast with tags := ["rent"] }).2 (by decide)⟩
